import Mathlib

/-!
# Verification of the autocomplete engine (`auto_completor.py`)

Shallow embedding of the matching and scoring engine of the repository's
`auto_completor.py`.  Text is represented as `List Char`; Python `str`
operations are translated to explicit list functions:

* `str.lower`        → `lowerL` (ASCII lowercasing, `Char.toLower`);
* `string.punctuation` removal (`str.translate`) → `removePunct`;
* `re.sub(r"\s+", " ", s)` → `collapseWs`;
* `str.strip()`      → `stripWs`;
* Python `in` / `str.index` on strings → `firstIndexOf`;
* the regular expressions of `build_regex` / `is_perfect_match` are
  embedded by their matching semantics (see the `Alt` machinery and
  `wordTokens` below).

Scores are `Int`, as Python integers can go negative in `calc_score`.
-/

/-- ASCII whitespace recognised by Python's `\s` (space, tab, newline,
vertical tab, form feed, carriage return). -/
def isSpaceChar (c : Char) : Bool :=
  c == ' ' || c == '\t' || c == '\n' || c == Char.ofNat 11 || c == Char.ofNat 12 || c == '\r'

/-- Membership in Python's `string.punctuation`
(ASCII 33–47, 58–64, 91–96, 123–126). -/
def isPunct (c : Char) : Bool :=
  (33 ≤ c.toNat && c.toNat ≤ 47) || (58 ≤ c.toNat && c.toNat ≤ 64) ||
  (91 ≤ c.toNat && c.toNat ≤ 96) || (123 ≤ c.toNat && c.toNat ≤ 126)

/-- Python's `\w` word character (ASCII model): alphanumeric or underscore. -/
def isWordChar (c : Char) : Bool :=
  c.isAlphanum || c == '_'

/-- Lowercase every character (Python `str.lower`, ASCII range). -/
def lowerL (s : List Char) : List Char :=
  s.map Char.toLower

/-- Remove all punctuation characters
(Python `str.translate(str.maketrans('', '', string.punctuation))`). -/
def removePunct (s : List Char) : List Char :=
  s.filter (fun c => !isPunct c)

/-- Helper for `collapseWs`: the flag records whether the previous
character was whitespace (so a run contributes a single space). -/
def collapseAux : Bool → List Char → List Char
  | _, [] => []
  | prevSpace, c :: rest =>
    if isSpaceChar c then
      if prevSpace then collapseAux true rest
      else ' ' :: collapseAux true rest
    else c :: collapseAux false rest

/-- `re.sub(r"\s+", " ", s)`: replace every whitespace run by one space. -/
def collapseWs (s : List Char) : List Char :=
  collapseAux false s

/-- `str.strip()`: drop leading and trailing whitespace. -/
def stripWs (s : List Char) : List Char :=
  ((s.dropWhile isSpaceChar).reverse.dropWhile isSpaceChar).reverse

/-- The query normalization performed at the top of `AutoCompletor.search`:
`re.sub(r"\s+", " ", substring).strip()` followed by
`re.sub(r",", "", substring).strip()`. -/
def normalizeQuery (s : List Char) : List Char :=
  stripWs ((stripWs (collapseWs s)).filter (fun c => c != ','))

/-- The `norm` helper inside `calc_score`: lowercase, remove punctuation,
collapse whitespace runs to single spaces, strip. -/
def scoreNorm (s : List Char) : List Char :=
  stripWs (collapseWs (removePunct (lowerL s)))

/-- `incorrect_letter_penalty`: penalty for a wrong letter at a 0-based
position. -/
def incorrect_letter_penalty (position : Nat) : Int :=
  if position == 0 then 5
  else if position == 1 then 4
  else if position == 2 then 3
  else if position == 3 then 2
  else 1

/-- `missing_or_added_penalty`: penalty for a missing or added letter at a
0-based position. -/
def missing_or_added_penalty (position : Nat) : Int :=
  if position == 0 then 10
  else if position == 1 then 8
  else if position == 2 then 6
  else if position == 3 then 4
  else 2

/-- The differing positions of two equal-length strings:
`[i for i, (a, b) in enumerate(zip(q, m)) if a != b]`. -/
def diffPositions (q m : List Char) : List Nat :=
  ((q.zip m).enum.filter (fun p => p.2.1 != p.2.2)).map (fun p => p.1)

/-- The two-cursor walk of `calc_score` for the length-difference-one case.
`walkAux l s k i` consumes the longer string `l` and the shorter string `s`
in parallel; `k` is the recorded skip index (if any) and `i` the current
index in `l`.  Result `none` means a second mismatch occurred (reject);
`some k` returns the recorded skip (possibly still `none`, meaning the
cursors ran off the end of `s` without a mismatch). -/
def walkAux : List Char → List Char → Option Nat → Nat → Option (Option Nat)
  | _, [], k, _ => some k
  | [], _ :: _, k, _ => some k
  | a :: l', b :: s', k, i =>
    if a == b then walkAux l' s' k (i + 1)
    else
      match k with
      | some _ => none
      | none => walkAux l' (b :: s') (some i) (i + 1)

/-- `l` of the length-difference-one case of `calc_score`:
`if len(q) > len(m): l = q else: l = m`. -/
def longerOf (q m : List Char) : List Char :=
  if q.length > m.length then q else m

/-- `s` of the length-difference-one case of `calc_score`. -/
def shorterOf (q m : List Char) : List Char :=
  if q.length > m.length then m else q

/-- The branch structure of `calc_score` after both arguments have been
normalized. -/
def calcScoreN (q m : List Char) : Int :=
  if 1 < ((q.length : Int) - (m.length : Int)).natAbs then 0
  else if q = m then 2 * (q.length : Int)
  else if q.length = m.length then
    match diffPositions q m with
    | [i] => 2 * (m.length : Int) - incorrect_letter_penalty i
    | _ => 0
  else
    match walkAux (longerOf q m) (shorterOf q m) none 0 with
    | none => 0
    | some k => 2 * (m.length : Int) - missing_or_added_penalty (k.getD ((longerOf q m).length - 1))

/-- `calc_score(query, match_text)`: one-edit scoring.  Faithful translation
of the Python function (note the base in the length-difference-one case is
`2 * len(m)` where `m` is the *normalized matched text*, regardless of
which of the two strings is the shorter). -/
def calc_score (query matchText : List Char) : Int :=
  calcScoreN (scoreNorm query) (scoreNorm matchText)

/-! ## The one-edit pattern family of `AutoCompletor.build_regex`

`build_regex` produces `\b(?:alt1|alt2|...)\b` compiled with `re.IGNORECASE`,
where every alternative is a literal string with at most one `.` wildcard.
We embed each alternative as a `Alt` (literal text before the wildcard,
whether a wildcard is present, literal text after it) and give the pattern
its matching semantics directly: `.` matches any character except `'\n'`,
literals match case-insensitively, `\b` is a word/non-word transition. -/

/-- One alternative of the fuzzy pattern: `pre`, optionally a single-character
wildcard, then `post`. -/
structure Alt where
  pre : List Char
  hasDot : Bool
  post : List Char
deriving DecidableEq

/-- Number of characters an alternative consumes. -/
def altLen (p : Alt) : Nat :=
  p.pre.length + (if p.hasDot then 1 else 0) + p.post.length

/-- Case-insensitive equality of two characters (`re.IGNORECASE`). -/
def ciEq (a b : Char) : Bool :=
  a.toLower == b.toLower

/-- Case-insensitive literal match of a pattern fragment against a text
fragment of the same length. -/
def litMatch : List Char → List Char → Bool
  | [], [] => true
  | a :: as, b :: bs => ciEq a b && litMatch as bs
  | _, _ => false

/-- The alternation list of `build_regex(q)`: insertions (one extra
character), substitutions (one replaced character), deletions (one removed
character), and the exact query itself — in that order, which is the order
the regex engine tries them. -/
def buildAlts (q : List Char) : List Alt :=
  ((List.range (q.length + 1)).map (fun i => ⟨q.take i, true, q.drop i⟩)) ++
  ((List.range q.length).map (fun i => ⟨q.take i, true, q.drop (i + 1)⟩)) ++
  ((List.range q.length).map (fun i => ⟨q.take i, false, q.drop (i + 1)⟩)) ++
  [⟨q, false, []⟩]

/-- Whether the character at index `i` of `s` is a word character
(`false` out of range). -/
def wordAt (s : List Char) (i : Nat) : Bool :=
  match s.get? i with
  | some c => isWordChar c
  | none => false

/-- Python's `\b`: position `pos` of `s` lies on a word/non-word transition. -/
def isBoundary (s : List Char) (pos : Nat) : Bool :=
  (if pos == 0 then false else wordAt s (pos - 1)) != wordAt s pos

/-- Does alternative `p` match the text of `s` starting at `pos`
(consuming exactly `altLen p` characters)? -/
def altMatchesAt (s : List Char) (pos : Nat) (p : Alt) : Bool :=
  let seg := (s.drop pos).take (altLen p)
  seg.length == altLen p &&
  litMatch p.pre (seg.take p.pre.length) &&
  (if p.hasDot then
      match seg.drop p.pre.length with
      | d :: _ => d != '\n'
      | [] => false
    else true) &&
  litMatch p.post (seg.drop (p.pre.length + (if p.hasDot then 1 else 0)))

/-- At start position `pos`: if `pos` is a word boundary, return the span of
the first alternative (in alternation order) that matches there and ends on
a word boundary.  This is exactly how Python's regex engine treats
`\b(?:a1|a2|...)\b` at one position. -/
def tryAltsAt (alts : List Alt) (s : List Char) (pos : Nat) : Option (Nat × Nat) :=
  if isBoundary s pos then
    alts.findSome? (fun p =>
      if altMatchesAt s pos p && isBoundary s (pos + altLen p) then
        some (pos, pos + altLen p)
      else none)
  else none

/-- `pattern.search(s)`: the leftmost match — scan start positions from the
left, at each position try the alternatives in order. -/
def regexFind (alts : List Alt) (s : List Char) : Option (Nat × Nat) :=
  (List.range (s.length + 1)).findSome? (tryAltsAt alts s)

/-! ## Exact matching -/

/-- First index at which `needle` occurs in `hay`
(Python `needle in hay` / `hay.index(needle)`). -/
def firstIndexOf (needle hay : List Char) : Option Nat :=
  (List.range (hay.length + 1)).findSome?
    (fun p => if needle.isPrefixOf (hay.drop p) then some p else none)

/-- All indices at which `needle` occurs literally in `hay` (used to state
where a query occurs inside a record). -/
def occurrencesOf (needle hay : List Char) : List Nat :=
  (List.range (hay.length + 1)).filter (fun p => needle.isPrefixOf (hay.drop p))

/-- Helper for `wordTokens`: `cur` is the reversed current run of word
characters. -/
def wordTokensAux : List Char → List Char → List (List Char)
  | cur, [] => if cur.isEmpty then [] else [cur.reverse]
  | cur, c :: rest =>
    if isWordChar c then wordTokensAux (c :: cur) rest
    else if cur.isEmpty then wordTokensAux [] rest
    else cur.reverse :: wordTokensAux [] rest

/-- `re.findall(r"\w+", s)`: the maximal runs of word characters of `s`. -/
def wordTokens (s : List Char) : List (List Char) :=
  wordTokensAux [] s

/-- Is `n` a contiguous sublist of `h`? -/
def tokSeg (n h : List (List Char)) : Bool :=
  match h with
  | [] => n.isEmpty
  | _ :: t => n.isPrefixOf h || tokSeg n t

/-- `is_perfect_match(query, sentence)`: the regex
`\b tok1 \W+ tok2 ... \W+ tokn \b` (tokens of the lowercased query) matches
the lowercased sentence.  Since every token is a maximal run of word
characters delimited by `\b`/`\W+`, this holds iff the query's token list is
nonempty and occurs as a contiguous sublist of the sentence's token list. -/
def is_perfect_match (query sentence : List Char) : Bool :=
  let toks := wordTokens (lowerL query)
  !toks.isEmpty && tokSeg toks (wordTokens (lowerL sentence))

/-! ## The search pipeline -/

/-- One corpus record, as produced by the archive reader:
content, source path, offset. -/
structure Sentence where
  content : List Char
  source_path : List Char
  offset : Nat
deriving DecidableEq

/-- `AutoCompleteData`: a single autocomplete candidate. -/
structure AutoCompleteData where
  completed_sentence : List Char
  source_text : List Char
  offset : Nat
  score : Int
  matched_substring : List Char
  match_span : Nat × Nat
deriving DecidableEq

namespace AutoCompletor

/-- The exact phase of `AutoCompletor.search` for one sentence: a candidate
is produced iff the lowercased (normalized) query occurs literally in the
lowercased content (`q_lower in tl`) *and* `is_perfect_match` holds; the
span starts at the first literal occurrence. -/
def exactCandidate (sub : List Char) (s : Sentence) : Option AutoCompleteData :=
  match firstIndexOf (lowerL sub) (lowerL s.content) with
  | none => none
  | some start =>
    if is_perfect_match sub s.content then
      some ⟨s.content, s.source_path, s.offset, 2 * sub.length, sub,
            (start, start + sub.length)⟩
    else none

/-- `AutoCompletor.search_sentences`: the sentences whose content matches
the fuzzy pattern. -/
def search_sentences (sub : List Char) (sentences : List Sentence) : List Sentence :=
  sentences.filter (fun s => (regexFind (buildAlts sub) s.content).isSome)

/-- The fuzzy phase of `AutoCompletor.search` for one sentence: find the
first span matched by the one-edit pattern, skip sentences whose content was
already produced by the exact phase (`set_of_seen`), and score the matched
text with `calc_score` — the score is *not* filtered in any way. -/
def fuzzyCandidate (sub : List Char) (seen : List (List Char)) (s : Sentence) :
    Option AutoCompleteData :=
  match regexFind (buildAlts sub) s.content with
  | none => none
  | some (st, en) =>
    if s.content ∈ seen then none
    else
      some ⟨s.content, s.source_path, s.offset,
            calc_score sub ((s.content.drop st).take (en - st)), sub, (st, en)⟩

/-- The exact phase over the whole corpus. -/
def exactPhase (input : List Char) (sentences : List Sentence) : List AutoCompleteData :=
  sentences.filterMap (exactCandidate (normalizeQuery input))

/-- The fuzzy phase over the whole corpus (as run by `search` when the exact
phase produced fewer than five results). -/
def fuzzyPhase (input : List Char) (sentences : List Sentence) : List AutoCompleteData :=
  let sub := normalizeQuery input
  let seen := (exactPhase input sentences).map (fun c => c.completed_sentence)
  (search_sentences sub sentences).filterMap (fuzzyCandidate sub seen)

/-- `AutoCompletor.search`: exact phase, then — when
`not results or len(results) < 5` — the fuzzy phase appended. -/
def search (input : List Char) (sentences : List Sentence) : List AutoCompleteData :=
  if (exactPhase input sentences).isEmpty || (exactPhase input sentences).length < 5 then
    exactPhase input sentences ++ fuzzyPhase input sentences
  else exactPhase input sentences

/-- `AutoCompletor.get_text` on `AutoCompleteData` values: the lowercased
completed sentence (used as the sort tie-breaker). -/
def get_text (c : AutoCompleteData) : List Char :=
  lowerL c.completed_sentence

/-- Lexicographic `≤` on character lists by code point — Python's string
comparison, used on the lowercased texts. -/
def lexLe : List Char → List Char → Bool
  | [], _ => true
  | _ :: _, [] => false
  | a :: as, b :: bs => if a < b then true else if b < a then false else lexLe as bs

/-- The sort order of `get_best_k_completions`:
Python's `key=lambda r: (-r.score, get_text(r))`. -/
def KeyLe (a b : AutoCompleteData) : Prop :=
  (b.score < a.score || (a.score == b.score && lexLe (get_text a) (get_text b))) = true

instance : DecidableRel KeyLe := fun a b => by
  unfold KeyLe; infer_instance

/-- `AutoCompletor.get_best_k_completions`: sort the search results by
descending score with the lowercased text as tie-breaker, return the first
five.  Python's `list.sort` is a stable sort by that key; `insertionSort`
with the reflexive total preorder `KeyLe` is also stable, and stable sorting
is unique, so the two agree. -/
def get_best_k_completions (input : List Char) (sentences : List Sentence) :
    List AutoCompleteData :=
  (List.insertionSort KeyLe (search input sentences)).take 5

end AutoCompletor

open AutoCompletor (lexLe get_text KeyLe)

/-! ## Order lemmas for the ranking -/

theorem lexLe_total : ∀ a b : List Char, lexLe a b = true ∨ lexLe b a = true
  | [], _ => Or.inl rfl
  | _ :: _, [] => Or.inr rfl
  | a :: as, b :: bs => by
    rcases lt_trichotomy a b with h | rfl | h
    · left; simp [lexLe, h]
    · rcases lexLe_total as bs with ih | ih
      · left; simp [lexLe, lt_irrefl, ih]
      · right; simp [lexLe, lt_irrefl, ih]
    · right; simp [lexLe, h]

theorem lexLe_trans : ∀ a b c : List Char,
    lexLe a b = true → lexLe b c = true → lexLe a c = true
  | [], _, _, _, _ => rfl
  | _ :: _, [], _, h, _ => by simp [lexLe] at h
  | _ :: _, _ :: _, [], _, h => by simp [lexLe] at h
  | a :: as, b :: bs, c :: cs, h1, h2 => by
    simp only [lexLe] at h1 h2 ⊢
    rcases lt_trichotomy a b with hab | rfl | hab
    · rcases lt_trichotomy b c with hbc | rfl | hbc
      · simp [lt_trans hab hbc]
      · simp [hab]
      · rw [if_neg (asymm hbc), if_pos hbc] at h2; exact absurd h2 (by simp)
    · rcases lt_trichotomy a c with hac | rfl | hac
      · simp [hac]
      · rw [if_neg (lt_irrefl a), if_neg (lt_irrefl a)] at h1 h2 ⊢
        exact lexLe_trans as bs cs h1 h2
      · rw [if_neg (asymm hac), if_pos hac] at h2; exact absurd h2 (by simp)
    · rw [if_neg (asymm hab), if_pos hab] at h1; exact absurd h1 (by simp)

instance : IsTotal AutoCompleteData AutoCompletor.KeyLe := by
  constructor
  intro a b
  unfold AutoCompletor.KeyLe
  rcases lt_trichotomy a.score b.score with h | h | h
  · right; simp [h]
  · rcases lexLe_total (AutoCompletor.get_text a) (AutoCompletor.get_text b) with hl | hl
    · left; simp [h, hl]
    · right; simp [h, hl]
  · left; simp [h]

instance : IsTrans AutoCompleteData AutoCompletor.KeyLe := by
  constructor
  intro a b c hab hbc
  unfold AutoCompletor.KeyLe at *
  simp only [Bool.or_eq_true, decide_eq_true_eq, Bool.and_eq_true, beq_iff_eq] at hab hbc ⊢
  rcases hab with h1 | ⟨h1, hl1⟩
  · rcases hbc with h2 | ⟨h2, hl2⟩
    · left; exact lt_trans h2 h1
    · left; exact h2 ▸ h1
  · rcases hbc with h2 | ⟨h2, hl2⟩
    · left; rwa [h1]
    · right; exact ⟨h1.trans h2, lexLe_trans _ _ _ hl1 hl2⟩

/-! ## Claim theorems -/

/-- C4: for every query and corpus, `get_best_k_completions` returns at most
5 candidates, in non-increasing score order, equal scores tied by ascending
lowercase candidate text. -/
theorem get_best_k_bounded_sorted (input : List Char) (sentences : List Sentence) :
    (AutoCompletor.get_best_k_completions input sentences).length ≤ 5 ∧
    (AutoCompletor.get_best_k_completions input sentences).Pairwise (fun a b =>
      b.score ≤ a.score ∧
      (a.score = b.score →
        lexLe (AutoCompletor.get_text a) (AutoCompletor.get_text b) = true)) := by
  unfold AutoCompletor.get_best_k_completions
  constructor
  · simp [List.length_take]
  · have hs : (List.insertionSort AutoCompletor.KeyLe
        (AutoCompletor.search input sentences)).Pairwise AutoCompletor.KeyLe :=
      List.sorted_insertionSort _ _
    have hp := List.Pairwise.sublist (List.take_sublist 5 _) hs
    refine hp.imp ?_
    intro a b hab
    unfold AutoCompletor.KeyLe at hab
    simp only [Bool.or_eq_true, decide_eq_true_eq, Bool.and_eq_true, beq_iff_eq] at hab
    rcases hab with h | ⟨h, hl⟩
    · exact ⟨le_of_lt h, fun he => (by omega : False).elim⟩
    · exact ⟨le_of_eq h.symm, fun _ => hl⟩

/-- C2 (code bug): `calc_score` promises a result `>= 0` in its docstring,
but `calc_score("ab", "xab") = -4`, and `search`/`get_best_k_completions`
retain the negative-score candidate for query `"ab"` over corpus `["xab"]`. -/
theorem negative_score_retained :
    calc_score ['a','b'] ['x','a','b'] = -4 ∧
    AutoCompletor.search ['a','b'] [⟨['x','a','b'], ['f'], 0⟩] =
      [⟨['x','a','b'], ['f'], 0, -4, ['a','b'], (0, 3)⟩] ∧
    AutoCompletor.get_best_k_completions ['a','b'] [⟨['x','a','b'], ['f'], 0⟩] =
      [⟨['x','a','b'], ['f'], 0, -4, ['a','b'], (0, 3)⟩] := by
  decide

/-- C3 (code bug): an empty or whitespace-only query does *not* return an
empty list: the degenerate one-edit pattern of the empty normalized query
matches an empty span at the first word boundary of every sentence, so each
sentence yields a score-0 candidate. -/
theorem empty_query_returns_candidates :
    normalizeQuery [' ', ' '] = [] ∧
    AutoCompletor.get_best_k_completions [] [⟨['h','i'], ['f'], 0⟩] =
      [⟨['h','i'], ['f'], 0, 0, [], (0, 0)⟩] ∧
    AutoCompletor.get_best_k_completions [' ', ' '] [⟨['h','i'], ['f'], 0⟩] ≠ [] := by
  decide

/-- C1 counterexample: for query `"abcd"` over the corpus `["xabcd"]` the
fuzzy phase produces a candidate whose `calc_score` is 0, and that candidate
*does* appear in the lists returned by `search` and
`get_best_k_completions`. -/
theorem fuzzy_score_zero_in_output :
    calc_score ['a','b','c','d'] ['x','a','b','c','d'] = 0 ∧
    AutoCompletor.search ['a','b','c','d'] [⟨['x','a','b','c','d'], ['f'], 0⟩] =
      [⟨['x','a','b','c','d'], ['f'], 0, 0, ['a','b','c','d'], (0, 5)⟩] ∧
    AutoCompletor.get_best_k_completions ['a','b','c','d']
        [⟨['x','a','b','c','d'], ['f'], 0⟩] =
      [⟨['x','a','b','c','d'], ['f'], 0, 0, ['a','b','c','d'], (0, 5)⟩] := by
  decide

/-- Helper: with five or more exact candidates, `search` returns exactly the
exact phase. -/
theorem search_eq_exact_of_ge (input : List Char) (sentences : List Sentence)
    (h : 5 ≤ (AutoCompletor.exactPhase input sentences).length) :
    AutoCompletor.search input sentences = AutoCompletor.exactPhase input sentences := by
  have h1 : (AutoCompletor.exactPhase input sentences).isEmpty = false := by
    cases hE : AutoCompletor.exactPhase input sentences with
    | nil => rw [hE] at h; simp at h
    | cons c t => rfl
  unfold AutoCompletor.search
  split
  · next hcond =>
      exfalso
      simp only [h1, Bool.false_or, decide_eq_true_eq] at hcond
      omega
  · rfl

/-- Helper: with fewer than five exact candidates, `search` is the exact
phase followed by the fuzzy phase. -/
theorem search_eq_append_of_lt (input : List Char) (sentences : List Sentence)
    (h : (AutoCompletor.exactPhase input sentences).length < 5) :
    AutoCompletor.search input sentences =
      AutoCompletor.exactPhase input sentences ++
        AutoCompletor.fuzzyPhase input sentences := by
  unfold AutoCompletor.search
  split
  · rfl
  · next hcond => exact absurd (by simp [h]) hcond

/-- C5: the fuzzy phase runs if and only if the exact phase produced fewer
than five candidates (`not results or len(results) < 5` is equivalent to
`len(results) < 5`); with five or more exact candidates the result is
exclusively the exact candidates. -/
theorem fuzzy_iff_exact_below_five (input : List Char) (sentences : List Sentence) :
    (5 ≤ (AutoCompletor.exactPhase input sentences).length →
      AutoCompletor.search input sentences = AutoCompletor.exactPhase input sentences) ∧
    ((AutoCompletor.exactPhase input sentences).length < 5 →
      AutoCompletor.search input sentences =
        AutoCompletor.exactPhase input sentences ++
          AutoCompletor.fuzzyPhase input sentences) :=
  ⟨search_eq_exact_of_ge input sentences, search_eq_append_of_lt input sentences⟩

/-- Witness for C5: a corpus with five exact matches for `"ab"`; search
returns exactly the exact-phase candidates and no fuzzy candidate. -/
theorem fuzzy_iff_exact_below_five_witness :
    5 ≤ (AutoCompletor.exactPhase ['a','b']
      [⟨['a','b'], ['f'], 0⟩, ⟨['a','b'], ['f'], 1⟩, ⟨['a','b'], ['f'], 2⟩,
       ⟨['a','b'], ['f'], 3⟩, ⟨['a','b'], ['f'], 4⟩, ⟨['a','x','b'], ['f'], 5⟩]).length ∧
    AutoCompletor.search ['a','b']
      [⟨['a','b'], ['f'], 0⟩, ⟨['a','b'], ['f'], 1⟩, ⟨['a','b'], ['f'], 2⟩,
       ⟨['a','b'], ['f'], 3⟩, ⟨['a','b'], ['f'], 4⟩, ⟨['a','x','b'], ['f'], 5⟩] =
    AutoCompletor.exactPhase ['a','b']
      [⟨['a','b'], ['f'], 0⟩, ⟨['a','b'], ['f'], 1⟩, ⟨['a','b'], ['f'], 2⟩,
       ⟨['a','b'], ['f'], 3⟩, ⟨['a','b'], ['f'], 4⟩, ⟨['a','x','b'], ['f'], 5⟩] :=
  ⟨by decide, (fuzzy_iff_exact_below_five _ _).1 (by decide)⟩

/-- Helper: the differing-position list of a string with itself is empty. -/
theorem diffAux_self (l : List Char) :
    ∀ n, ((l.zip l).enumFrom n).filter (fun p => p.2.1 != p.2.2) = [] := by
  induction l with
  | nil => intro n; rfl
  | cons a t ih =>
    intro n
    rw [List.zip_cons_cons]
    rw [show List.enumFrom n ((a, a) :: t.zip t) =
      (n, (a, a)) :: List.enumFrom (n + 1) (t.zip t) from rfl]
    rw [List.filter_cons, if_neg (by simp)]
    exact ih (n + 1)

theorem diffPositions_self (l : List Char) : diffPositions l l = [] := by
  unfold diffPositions
  rw [List.enum_eq_enumFrom, diffAux_self]
  rfl

/-- C7: the equal-length branches of `calc_score`: identical normalized
strings score `2 * length`; exactly one differing position `i` scores
`2 * length - incorrect_letter_penalty i`; two or more differing positions
score 0; length difference above one scores 0; the substitution penalties
are 5, 4, 3, 2 for positions 0–3 and 1 beyond; `calc_score("name","name") = 8`. -/
theorem calc_score_equal_length_cases (q m : List Char) :
    (scoreNorm q = scoreNorm m → calc_score q m = 2 * ((scoreNorm q).length : Int)) ∧
    (∀ i, diffPositions (scoreNorm q) (scoreNorm m) = [i] →
      (scoreNorm q).length = (scoreNorm m).length →
      calc_score q m = 2 * ((scoreNorm m).length : Int) - incorrect_letter_penalty i) ∧
    ((scoreNorm q).length = (scoreNorm m).length →
      2 ≤ (diffPositions (scoreNorm q) (scoreNorm m)).length → calc_score q m = 0) ∧
    (1 < (((scoreNorm q).length : Int) - ((scoreNorm m).length : Int)).natAbs →
      calc_score q m = 0) ∧
    (incorrect_letter_penalty 0 = 5 ∧ incorrect_letter_penalty 1 = 4 ∧
      incorrect_letter_penalty 2 = 3 ∧ incorrect_letter_penalty 3 = 2 ∧
      ∀ i, 4 ≤ i → incorrect_letter_penalty i = 1) ∧
    calc_score ['n','a','m','e'] ['n','a','m','e'] = 8 := by
  refine ⟨?_, ?_, ?_, ?_, ⟨rfl, rfl, rfl, rfl, ?_⟩, by decide⟩
  · intro h
    unfold calc_score calcScoreN
    rw [h, if_neg (by simp), if_pos rfl]
  · intro i hdiff hlen
    have hne : scoreNorm q ≠ scoreNorm m := by
      intro he; rw [he, diffPositions_self] at hdiff; simp at hdiff
    unfold calc_score calcScoreN
    rw [if_neg (by rw [hlen]; simp), if_neg hne, if_pos hlen, hdiff]
  · intro hlen h2
    have hne : scoreNorm q ≠ scoreNorm m := by
      intro he; rw [he, diffPositions_self] at h2; simp at h2
    unfold calc_score calcScoreN
    rw [if_neg (by rw [hlen]; simp), if_neg hne, if_pos hlen]
    obtain ⟨x, y, t, ht⟩ : ∃ x y t,
        diffPositions (scoreNorm q) (scoreNorm m) = x :: y :: t := by
      match hd : diffPositions (scoreNorm q) (scoreNorm m) with
      | [] => rw [hd] at h2; simp at h2
      | [i] => rw [hd] at h2; simp at h2
      | x :: y :: t => exact ⟨x, y, t, rfl⟩
    rw [ht]
  · intro h
    unfold calc_score calcScoreN
    rw [if_pos h]
  · intro i hi
    unfold incorrect_letter_penalty
    have h0 : ¬ ((i == 0) = true) := by simp only [beq_iff_eq]; omega
    have h1 : ¬ ((i == 1) = true) := by simp only [beq_iff_eq]; omega
    have h2 : ¬ ((i == 2) = true) := by simp only [beq_iff_eq]; omega
    have h3 : ¬ ((i == 3) = true) := by simp only [beq_iff_eq]; omega
    rw [if_neg h0, if_neg h1, if_neg h2, if_neg h3]

/-- Witness for C7: a single substitution at position 0 of the 4-character
pair `("bame", "name")` yields `2*4 - 5 = 3` through the theorem. -/
theorem calc_score_equal_length_cases_witness :
    diffPositions (scoreNorm ['b','a','m','e']) (scoreNorm ['n','a','m','e']) = [0] ∧
    calc_score ['b','a','m','e'] ['n','a','m','e'] = 3 := by
  refine ⟨by decide, ?_⟩
  have h := (calc_score_equal_length_cases ['b','a','m','e'] ['n','a','m','e']).2.1 0
    (by decide) (by decide)
  rw [h]; decide

/-- C6 amended: in the length-difference-one case the base of the score is
`2 * length(M)` where `M` is the *normalized matched text* — the shorter of
the two strings only when the query is the longer one; with a skip index `k`
found by the two-cursor walk (defaulting to `length(L) - 1`), the result is
`2 * length(M) - edit_penalty(k)`, with edit penalties 10, 8, 6, 4 for
positions 0–3 and 2 beyond. -/
theorem calc_score_one_edit_base (q m : List Char) (ko : Option Nat)
    (hlen : (((scoreNorm q).length : Int) - ((scoreNorm m).length : Int)).natAbs = 1)
    (hwalk : walkAux (longerOf (scoreNorm q) (scoreNorm m))
        (shorterOf (scoreNorm q) (scoreNorm m)) none 0 = some ko) :
    calc_score q m = 2 * ((scoreNorm m).length : Int) -
      missing_or_added_penalty
        (ko.getD ((longerOf (scoreNorm q) (scoreNorm m)).length - 1)) ∧
    (missing_or_added_penalty 0 = 10 ∧ missing_or_added_penalty 1 = 8 ∧
      missing_or_added_penalty 2 = 6 ∧ missing_or_added_penalty 3 = 4 ∧
      ∀ i, 4 ≤ i → missing_or_added_penalty i = 2) := by
  constructor
  · have hne : scoreNorm q ≠ scoreNorm m := by
      intro he; rw [he] at hlen; simp at hlen
    have hlne : ¬ ((scoreNorm q).length = (scoreNorm m).length) := by
      intro he; rw [he] at hlen; simp at hlen
    unfold calc_score calcScoreN
    rw [if_neg (by rw [hlen]; simp), if_neg hne, if_neg hlne, hwalk]
  · refine ⟨rfl, rfl, rfl, rfl, ?_⟩
    intro i hi
    unfold missing_or_added_penalty
    have h0 : ¬ ((i == 0) = true) := by simp only [beq_iff_eq]; omega
    have h1 : ¬ ((i == 1) = true) := by simp only [beq_iff_eq]; omega
    have h2 : ¬ ((i == 2) = true) := by simp only [beq_iff_eq]; omega
    have h3 : ¬ ((i == 3) = true) := by simp only [beq_iff_eq]; omega
    rw [if_neg h0, if_neg h1, if_neg h2, if_neg h3]

/-- C6 counterexample: for query `"ab"` and matched text `"xab"` (one
insertion detected at position 0, shorter normalized string of length 2) the
score is `2*3 - 10 = -4`, not `2*2 - 10 = -6` as the claim's
`2 * length(S)` formula requires. -/
theorem calc_score_insertion_base_counterexample :
    (((scoreNorm ['a','b']).length : Int) -
        ((scoreNorm ['x','a','b']).length : Int)).natAbs = 1 ∧
    walkAux (longerOf (scoreNorm ['a','b']) (scoreNorm ['x','a','b']))
        (shorterOf (scoreNorm ['a','b']) (scoreNorm ['x','a','b'])) none 0 =
      some (some 0) ∧
    shorterOf (scoreNorm ['a','b']) (scoreNorm ['x','a','b']) = ['a','b'] ∧
    calc_score ['a','b'] ['x','a','b'] = -4 ∧
    calc_score ['a','b'] ['x','a','b'] ≠ 2 * 2 - 10 := by
  decide

/-- Witness for C6: deletion case `("abcd", "abc")` — walk finds no skip, so
`k` defaults to `length(L) - 1 = 3`, penalty 4, score `2*3 - 4 = 2`. -/
theorem calc_score_one_edit_base_witness :
    (((scoreNorm ['a','b','c','d']).length : Int) -
        ((scoreNorm ['a','b','c']).length : Int)).natAbs = 1 ∧
    calc_score ['a','b','c','d'] ['a','b','c'] = 2 := by
  refine ⟨by decide, ?_⟩
  have h := (calc_score_one_edit_base ['a','b','c','d'] ['a','b','c'] none
    (by decide) (by decide)).1
  rw [h]; decide

/-- C8 amended: the exact phase produces a candidate for a record iff the
lowercased normalized query occurs *literally* as a substring of the
lowercased content and additionally the query's tokens occur as a run of
whole words (`is_perfect_match`); the candidate then has score
`2 * length(query)` and span starting at the first literal occurrence.  When
no literal substring occurrence exists (e.g. the punctuation differs), *no*
exact candidate is produced for that record. -/
theorem exact_candidate_characterization (sub : List Char) (s : Sentence) :
    (∀ st, firstIndexOf (lowerL sub) (lowerL s.content) = some st →
      is_perfect_match sub s.content = true →
      AutoCompletor.exactCandidate sub s =
        some ⟨s.content, s.source_path, s.offset, 2 * (sub.length : Int), sub,
              (st, st + sub.length)⟩) ∧
    (firstIndexOf (lowerL sub) (lowerL s.content) = none →
      AutoCompletor.exactCandidate sub s = none) ∧
    (is_perfect_match sub s.content = false →
      AutoCompletor.exactCandidate sub s = none) := by
  refine ⟨?_, ?_, ?_⟩
  · intro st hf hp
    unfold AutoCompletor.exactCandidate
    rw [hf]
    simp [hp]
  · intro hf
    unfold AutoCompletor.exactCandidate
    rw [hf]
  · intro hp
    unfold AutoCompletor.exactCandidate
    cases hf : firstIndexOf (lowerL sub) (lowerL s.content) with
    | none => rfl
    | some st => simp [hp]

/-- C8 counterexample: for query `"my name"` and record `"my, name"` the
query's tokens do occur in order as whole words (`is_perfect_match` holds),
but the literal lowercased query is not a substring of the lowercased text,
and the exact phase produces *no* candidate — contrary to the claim that a
candidate with a token-run span is still produced. -/
theorem exact_phase_requires_literal_substring :
    is_perfect_match ['m','y',' ','n','a','m','e']
      ['m','y',',',' ','n','a','m','e'] = true ∧
    firstIndexOf (lowerL ['m','y',' ','n','a','m','e'])
      (lowerL ['m','y',',',' ','n','a','m','e']) = none ∧
    AutoCompletor.exactPhase ['m','y',' ','n','a','m','e']
      [⟨['m','y',',',' ','n','a','m','e'], ['f'], 0⟩] = [] := by
  decide

/-- Witness for C8: query `"my"` against record `"my x"` — literal substring
at index 0 and a perfect token match, so the exact candidate exists with
score 4 and span `(0, 2)`. -/
theorem exact_candidate_characterization_witness :
    AutoCompletor.exactCandidate ['m','y'] ⟨['m','y',' ','x'], ['f'], 0⟩ =
      some ⟨['m','y',' ','x'], ['f'], 0, 4, ['m','y'], (0, 2)⟩ := by
  have h := (exact_candidate_characterization ['m','y']
    ⟨['m','y',' ','x'], ['f'], 0⟩).1 0 (by decide) (by decide)
  rw [h]
  decide

/-! ## Word-token and boundary lemmas -/

/-- On an all-word-character string, `wordTokensAux` yields the single run
accumulated so far followed by the rest. -/
theorem wordTokensAux_all_word (l : List Char) :
    ∀ cur : List Char, l.all isWordChar = true →
      wordTokensAux cur l =
        if cur.isEmpty && l.isEmpty then [] else [cur.reverse ++ l] := by
  induction l with
  | nil =>
    intro cur _
    cases cur with
    | nil => rfl
    | cons c t => simp [wordTokensAux]
  | cons c t ih =>
    intro cur hall
    rw [List.all_cons, Bool.and_eq_true] at hall
    unfold wordTokensAux
    rw [if_pos hall.1, ih (c :: cur) hall.2]
    simp

/-- A nonempty all-word-character string is its own single token. -/
theorem wordTokens_all_word (l : List Char) (hne : l ≠ [])
    (hall : l.all isWordChar = true) : wordTokens l = [l] := by
  unfold wordTokens
  rw [wordTokensAux_all_word l [] hall]
  cases l with
  | nil => exact absurd rfl hne
  | cons c t => simp

/-- Every token produced by `wordTokensAux` is at most as long as the
accumulated run plus the remaining input. -/
theorem wordTokensAux_length_le (l : List Char) :
    ∀ cur t, t ∈ wordTokensAux cur l → t.length ≤ cur.length + l.length := by
  induction l with
  | nil =>
    intro cur t ht
    unfold wordTokensAux at ht
    by_cases hc : cur.isEmpty = true
    · rw [if_pos hc] at ht; simp at ht
    · rw [if_neg hc] at ht
      simp at ht
      subst ht
      simp
  | cons c rest ih =>
    intro cur t ht
    unfold wordTokensAux at ht
    by_cases hw : isWordChar c = true
    · rw [if_pos hw] at ht
      have h := ih (c :: cur) t ht
      simp only [List.length_cons] at h ⊢
      omega
    · rw [if_neg hw] at ht
      by_cases hc : cur.isEmpty = true
      · rw [if_pos hc] at ht
        have h := ih [] t ht
        simp only [List.length_nil, List.length_cons] at h ⊢
        omega
      · rw [if_neg hc] at ht
        rcases List.mem_cons.mp ht with rfl | ht'
        · simp only [List.length_reverse, List.length_cons]
          omega
        · have h := ih [] t ht'
          simp only [List.length_nil, List.length_cons] at h ⊢
          omega

/-- Every word token of `l` is at most as long as `l`. -/
theorem wordTokens_length_le (l t : List Char) (ht : t ∈ wordTokens l) :
    t.length ≤ l.length := by
  unfold wordTokens at ht
  simpa using wordTokensAux_length_le l [] t ht

/-- A contiguous sublist of a one-element list is empty or the whole list. -/
theorem tokSeg_singleton (n : List (List Char)) (w : List Char)
    (h : tokSeg n [w] = true) : n = [] ∨ n = [w] := by
  unfold tokSeg at h
  rw [Bool.or_eq_true] at h
  rcases h with h | h
  · cases n with
    | nil => exact Or.inl rfl
    | cons x xs =>
      cases xs with
      | nil =>
        simp [List.isPrefixOf] at h
        exact Or.inr (by rw [h])
      | cons y ys => simp [List.isPrefixOf] at h
  · unfold tokSeg at h
    simp at h
    exact Or.inl h

/-- On an all-word string, a position carries a word character iff it is in
range. -/
theorem wordAt_of_all {s : List Char} (h : s.all isWordChar = true) (i : Nat) :
    wordAt s i = decide (i < s.length) := by
  unfold wordAt
  cases hg : s.get? i with
  | none =>
    have hlen : s.length ≤ i := List.get?_eq_none.mp hg
    simp [Nat.not_lt.mpr hlen]
  | some c =>
    have hc : c ∈ s := List.get?_mem hg
    have hw : isWordChar c = true := List.all_eq_true.mp h c hc
    have hi : i < s.length := List.get?_eq_some.mp hg |>.choose
    simp [hw, hi]

/-- On a non-empty all-word string, the only word boundaries are the two
ends. -/
theorem isBoundary_all_word {s : List Char} (h : s.all isWordChar = true)
    (pos : Nat) :
    isBoundary s pos = true ↔ (0 < s.length ∧ (pos = 0 ∨ pos = s.length)) := by
  unfold isBoundary
  by_cases h0 : pos = 0
  · subst h0
    rw [wordAt_of_all h]
    by_cases hl : 0 < s.length <;> simp [hl]
  · have hb : (pos == 0) = false := by simp [h0]
    rw [hb, wordAt_of_all h, wordAt_of_all h]
    by_cases hA : pos - 1 < s.length <;> by_cases hB : pos < s.length <;>
      simp [hA, hB] <;> omega

/-- Length bounds for the one-edit alternatives of a query. -/
theorem altLen_of_mem (q : List Char) (p : Alt) (hp : p ∈ buildAlts q) :
    q.length - 1 ≤ altLen p ∧ altLen p ≤ q.length + 1 := by
  unfold buildAlts at hp
  simp only [List.mem_append, List.mem_map, List.mem_range,
    List.mem_singleton] at hp
  rcases hp with ((⟨i, hi, rfl⟩ | ⟨i, hi, rfl⟩) | ⟨i, hi, rfl⟩) | rfl <;>
    simp [altLen, List.length_take, List.length_drop] <;> omega

/-- C9 amended: when the record is a single larger word — content entirely
word characters, at least two characters longer than the normalized query —
and the query (of length ≥ 2) can therefore occur only strictly inside it,
neither the exact phase nor the fuzzy phase matches the record: every match
must start and end on word boundaries, and a single all-word record has
boundaries only at its two ends, which no one-edit alternative can span.
(The original unrestricted claim fails: a multi-token record can match the
fuzzy pattern at a *different* span, and a one-character query's deletion
alternative matches an empty span; see the counterexample.) -/
theorem single_word_record_no_match (q : List Char) (s : Sentence)
    (hword : s.content.all isWordChar = true)
    (hlword : (lowerL s.content).all isWordChar = true)
    (hq2 : 2 ≤ (normalizeQuery q).length)
    (hlen : (normalizeQuery q).length + 2 ≤ s.content.length) :
    regexFind (buildAlts (normalizeQuery q)) s.content = none ∧
    AutoCompletor.exactCandidate (normalizeQuery q) s = none ∧
    (∀ seen, AutoCompletor.fuzzyCandidate (normalizeQuery q) seen s = none) ∧
    AutoCompletor.search q [s] = [] := by
  have hfind : regexFind (buildAlts (normalizeQuery q)) s.content = none := by
    unfold regexFind
    rw [List.findSome?_eq_none_iff]
    intro pos hpos
    rw [List.mem_range] at hpos
    unfold tryAltsAt
    by_cases hb : isBoundary s.content pos = true
    · rw [if_pos hb]
      rw [List.findSome?_eq_none_iff]
      intro p hp
      have hbl := altLen_of_mem _ p hp
      rcases (isBoundary_all_word hword pos).mp hb with ⟨-, hpos0 | hposlen⟩
      · subst hpos0
        rw [if_neg]
        simp only [Bool.and_eq_true, not_and]
        intro _ hb2
        rcases (isBoundary_all_word hword _).mp hb2 with ⟨-, h0 | hl⟩ <;> omega
      · subst hposlen
        rw [if_neg]
        simp only [Bool.and_eq_true, not_and]
        intro hm
        exfalso
        unfold altMatchesAt at hm
        simp only [Bool.and_eq_true] at hm
        have hseg := hm.1
        rw [List.drop_length] at hseg
        simp at hseg
        omega
    · rw [if_neg hb]
  have hpm : is_perfect_match (normalizeQuery q) s.content = false := by
    rw [Bool.eq_false_iff]
    intro htrue
    unfold is_perfect_match at htrue
    have hw : wordTokens (lowerL s.content) = [lowerL s.content] := by
      refine wordTokens_all_word _ ?_ hlword
      intro he
      have : (lowerL s.content).length = 0 := by rw [he]; rfl
      rw [lowerL, List.length_map] at this
      omega
    rw [hw] at htrue
    simp only [Bool.and_eq_true] at htrue
    obtain ⟨hne, hseg⟩ := htrue
    rcases tokSeg_singleton _ _ hseg with hnil | hsing
    · rw [hnil] at hne; simp at hne
    · have hmem : (lowerL s.content) ∈ wordTokens (lowerL (normalizeQuery q)) := by
        rw [hsing]; exact List.mem_singleton_self _
      have hle := wordTokens_length_le _ _ hmem
      rw [lowerL, lowerL, List.length_map, List.length_map] at hle
      omega
  have hexact : AutoCompletor.exactCandidate (normalizeQuery q) s = none := by
    unfold AutoCompletor.exactCandidate
    cases hf : firstIndexOf (lowerL (normalizeQuery q)) (lowerL s.content) with
    | none => rfl
    | some st => simp [hpm]
  have hfz : ∀ seen, AutoCompletor.fuzzyCandidate (normalizeQuery q) seen s = none := by
    intro seen
    unfold AutoCompletor.fuzzyCandidate
    rw [hfind]
  refine ⟨hfind, hexact, hfz, ?_⟩
  have hE : AutoCompletor.exactPhase q [s] = [] := by
    unfold AutoCompletor.exactPhase
    simp [hexact]
  have hF : AutoCompletor.fuzzyPhase q [s] = [] := by
    unfold AutoCompletor.fuzzyPhase AutoCompletor.search_sentences
    simp [hfind]
  unfold AutoCompletor.search
  rw [hE, hF]
  simp

/-- Witness for C9: query `"cat"` against the single-word record
`"category"` yields no candidate at all. -/
theorem single_word_record_no_match_witness :
    2 ≤ (normalizeQuery ['c','a','t']).length ∧
    AutoCompletor.search ['c','a','t']
      [⟨['c','a','t','e','g','o','r','y'], ['f'], 0⟩] = [] :=
  ⟨by decide,
   (single_word_record_no_match ['c','a','t']
     ⟨['c','a','t','e','g','o','r','y'], ['f'], 0⟩
     (by decide) (by decide) (by decide) (by decide)).2.2.2⟩

/-- C9 counterexample: two records in which the query occurs *only* strictly
inside a larger word (word characters on both sides of the unique
occurrence) yet which *are* matched by the fuzzy phase and do contribute a
candidate: `"xcatx bat"` for query `"cat"` (the one-edit alternative matches
the separate word `"bat"`), and `"xcx"` for the one-character query `"c"`
(the deletion alternative matches an empty span). -/
theorem inside_word_record_can_match :
    (occurrencesOf ['c','a','t'] ['x','c','a','t','x',' ','b','a','t'] = [1] ∧
     wordAt ['x','c','a','t','x',' ','b','a','t'] 0 = true ∧
     wordAt ['x','c','a','t','x',' ','b','a','t'] 4 = true ∧
     AutoCompletor.search ['c','a','t']
         [⟨['x','c','a','t','x',' ','b','a','t'], ['f'], 0⟩] =
       [⟨['x','c','a','t','x',' ','b','a','t'], ['f'], 0, 1, ['c','a','t'],
         (6, 9)⟩]) ∧
    (occurrencesOf ['c'] ['x','c','x'] = [1] ∧
     wordAt ['x','c','x'] 0 = true ∧
     wordAt ['x','c','x'] 2 = true ∧
     AutoCompletor.search ['c'] [⟨['x','c','x'], ['f'], 0⟩] =
       [⟨['x','c','x'], ['f'], 0, -10, ['c'], (0, 0)⟩]) := by
  decide

/-! ## Fuzzy-phase membership lemmas -/

/-- Whether the exact phase produces a candidate depends only on the
record's content. -/
theorem exactCandidate_isSome_eq_of_content (sub : List Char) (s₁ s₂ : Sentence)
    (h : s₁.content = s₂.content) :
    (AutoCompletor.exactCandidate sub s₁).isSome =
      (AutoCompletor.exactCandidate sub s₂).isSome := by
  unfold AutoCompletor.exactCandidate
  rw [h]
  cases firstIndexOf (lowerL sub) (lowerL s₂.content) with
  | none => rfl
  | some st =>
    by_cases hp : is_perfect_match sub s₂.content = true
    · simp [hp]
    · simp [hp]

/-- If a record is not exact-matched, its content is not in the dedup set
(`set_of_seen`) either. -/
theorem content_not_in_seen (input : List Char) (ss : List Sentence) (s : Sentence)
    (hnone : AutoCompletor.exactCandidate (normalizeQuery input) s = none) :
    s.content ∉ (AutoCompletor.exactPhase input ss).map
      (fun c => c.completed_sentence) := by
  intro hmem
  rw [List.mem_map] at hmem
  obtain ⟨cand, hcand, hcc⟩ := hmem
  unfold AutoCompletor.exactPhase at hcand
  rw [List.mem_filterMap] at hcand
  obtain ⟨s', hs', hsome⟩ := hcand
  have hcont : cand.completed_sentence = s'.content := by
    unfold AutoCompletor.exactCandidate at hsome
    cases hf : firstIndexOf (lowerL (normalizeQuery input)) (lowerL s'.content) with
    | none => rw [hf] at hsome; exact absurd hsome (by simp)
    | some st =>
      rw [hf] at hsome
      by_cases hp : is_perfect_match (normalizeQuery input) s'.content = true
      · simp only [hp, if_true] at hsome
        rw [← Option.some_inj.mp hsome]
      · simp [hp] at hsome
  have hcs : s'.content = s.content := by rw [← hcont, hcc]
  have hiso := exactCandidate_isSome_eq_of_content (normalizeQuery input) s' s hcs
  rw [hnone, hsome] at hiso
  simp at hiso

/-- When the fuzzy phase runs, every sentence whose content is not
exact-matched and whose content matches the one-edit pattern contributes its
fuzzy candidate — whatever `calc_score` returns for it — to the output of
`search`. -/
theorem fuzzy_candidate_mem_search (input : List Char) (ss : List Sentence)
    (s : Sentence) (st en : Nat) (hs : s ∈ ss)
    (hlt : (AutoCompletor.exactPhase input ss).length < 5)
    (hmatch : regexFind (buildAlts (normalizeQuery input)) s.content = some (st, en))
    (hnoexact : AutoCompletor.exactCandidate (normalizeQuery input) s = none) :
    (⟨s.content, s.source_path, s.offset,
      calc_score (normalizeQuery input) ((s.content.drop st).take (en - st)),
      normalizeQuery input, (st, en)⟩ : AutoCompleteData) ∈
      AutoCompletor.search input ss := by
  rw [search_eq_append_of_lt input ss hlt]
  apply List.mem_append_right
  unfold AutoCompletor.fuzzyPhase
  rw [List.mem_filterMap]
  refine ⟨s, ?_, ?_⟩
  · unfold AutoCompletor.search_sentences
    rw [List.mem_filter]
    exact ⟨hs, by rw [hmatch]; rfl⟩
  · unfold AutoCompletor.fuzzyCandidate
    rw [hmatch]
    have hnm := content_not_in_seen input ss s hnoexact
    simp [hnm]

/-- C1 amended: fuzzy-phase candidates are *not* filtered by score before
ranking: whenever the fuzzy phase runs, a fuzzy-matching record whose
content is not exact-matched contributes its candidate even when its
`calc_score` is 0 — the score-0 candidate appears in the list returned by
`search`. -/
theorem fuzzy_score_zero_not_discarded (input : List Char) (ss : List Sentence)
    (s : Sentence) (st en : Nat) (hs : s ∈ ss)
    (hlt : (AutoCompletor.exactPhase input ss).length < 5)
    (hmatch : regexFind (buildAlts (normalizeQuery input)) s.content = some (st, en))
    (hnoexact : AutoCompletor.exactCandidate (normalizeQuery input) s = none)
    (hzero : calc_score (normalizeQuery input)
      ((s.content.drop st).take (en - st)) = 0) :
    (⟨s.content, s.source_path, s.offset, 0, normalizeQuery input,
      (st, en)⟩ : AutoCompleteData) ∈ AutoCompletor.search input ss := by
  have h := fuzzy_candidate_mem_search input ss s st en hs hlt hmatch hnoexact
  rwa [hzero] at h

/-- Witness for C1: query `"abcd"` over corpus `["xabcd"]` — the fuzzy match
scores 0 and its candidate is in the output of `search`. -/
theorem fuzzy_score_zero_not_discarded_witness :
    (⟨['x','a','b','c','d'], ['f'], 0, 0, ['a','b','c','d'],
      (0, 5)⟩ : AutoCompleteData) ∈
      AutoCompletor.search ['a','b','c','d'] [⟨['x','a','b','c','d'], ['f'], 0⟩] :=
  fuzzy_score_zero_not_discarded ['a','b','c','d']
    [⟨['x','a','b','c','d'], ['f'], 0⟩] ⟨['x','a','b','c','d'], ['f'], 0⟩ 0 5
    (by decide) (by decide) (by decide) (by decide) (by decide)

/-- C10 amended: *provided the exact phase produced fewer than five
candidates* (so the fuzzy phase runs at all), deduplication is applied only
against exact-phase contents, never within the fuzzy phase: two distinct
records with identical content, neither exact-matched and both matching the
one-edit pattern, each contribute their own candidate to `search`'s
output. -/
theorem fuzzy_no_dedup_within_phase (input : List Char)
    (pre mid post : List Sentence) (r1 r2 : Sentence) (st en : Nat)
    (hcontent : r1.content = r2.content)
    (hoff : r1.offset ≠ r2.offset)
    (hlt : (AutoCompletor.exactPhase input
      (pre ++ r1 :: mid ++ r2 :: post)).length < 5)
    (hmatch : regexFind (buildAlts (normalizeQuery input)) r1.content =
      some (st, en))
    (hnoexact : AutoCompletor.exactCandidate (normalizeQuery input) r1 = none) :
    ((⟨r1.content, r1.source_path, r1.offset,
        calc_score (normalizeQuery input) ((r1.content.drop st).take (en - st)),
        normalizeQuery input, (st, en)⟩ : AutoCompleteData) ∈
      AutoCompletor.search input (pre ++ r1 :: mid ++ r2 :: post)) ∧
    ((⟨r2.content, r2.source_path, r2.offset,
        calc_score (normalizeQuery input) ((r2.content.drop st).take (en - st)),
        normalizeQuery input, (st, en)⟩ : AutoCompleteData) ∈
      AutoCompletor.search input (pre ++ r1 :: mid ++ r2 :: post)) ∧
    (⟨r1.content, r1.source_path, r1.offset,
        calc_score (normalizeQuery input) ((r1.content.drop st).take (en - st)),
        normalizeQuery input, (st, en)⟩ : AutoCompleteData) ≠
      ⟨r2.content, r2.source_path, r2.offset,
        calc_score (normalizeQuery input) ((r2.content.drop st).take (en - st)),
        normalizeQuery input, (st, en)⟩ := by
  have hr1 : r1 ∈ pre ++ r1 :: mid ++ r2 :: post := by simp
  have hr2 : r2 ∈ pre ++ r1 :: mid ++ r2 :: post := by simp
  have hmatch2 : regexFind (buildAlts (normalizeQuery input)) r2.content =
      some (st, en) := by rw [← hcontent]; exact hmatch
  have hnoexact2 : AutoCompletor.exactCandidate (normalizeQuery input) r2 = none := by
    have h := exactCandidate_isSome_eq_of_content (normalizeQuery input) r1 r2 hcontent
    rw [hnoexact] at h
    cases hE : AutoCompletor.exactCandidate (normalizeQuery input) r2 with
    | none => rfl
    | some c => rw [hE] at h; simp at h
  refine ⟨fuzzy_candidate_mem_search input _ r1 st en hr1 hlt hmatch hnoexact,
          fuzzy_candidate_mem_search input _ r2 st en hr2 hlt hmatch2 hnoexact2, ?_⟩
  intro he
  exact hoff (congrArg AutoCompleteData.offset he)

/-- Witness for C10: query `"ab"` over two identical records `"axb"` with
offsets 5 and 6 — each gets its own candidate in the output. -/
theorem fuzzy_no_dedup_within_phase_witness :
    ((⟨['a','x','b'], ['f'], 5, -2, ['a','b'], (0, 3)⟩ : AutoCompleteData) ∈
      AutoCompletor.search ['a','b']
        [⟨['a','x','b'], ['f'], 5⟩, ⟨['a','x','b'], ['f'], 6⟩]) ∧
    ((⟨['a','x','b'], ['f'], 6, -2, ['a','b'], (0, 3)⟩ : AutoCompleteData) ∈
      AutoCompletor.search ['a','b']
        [⟨['a','x','b'], ['f'], 5⟩, ⟨['a','x','b'], ['f'], 6⟩]) := by
  have h := fuzzy_no_dedup_within_phase ['a','b'] [] [] []
    ⟨['a','x','b'], ['f'], 5⟩ ⟨['a','x','b'], ['f'], 6⟩ 0 3 rfl
    (by decide) (by decide) (by decide) (by decide)
  exact ⟨h.1, h.2.1⟩

/-- C10 counterexample: the original claim omits the requirement that the
fuzzy phase runs.  With five exact hits for `"ab"` plus two identical
records `"axb"` (distinct, identical content, not exact-matched, matching
the one-edit pattern), `search` returns *no* candidate for either `"axb"`
record. -/
theorem fuzzy_skipped_when_exact_full :
    AutoCompletor.exactCandidate ['a','b'] ⟨['a','x','b'], ['f'], 5⟩ = none ∧
    (regexFind (buildAlts ['a','b']) ['a','x','b']).isSome = true ∧
    List.filter (fun c => c.completed_sentence == ['a','x','b'])
      (AutoCompletor.search ['a','b']
        [⟨['a','b'], ['f'], 0⟩, ⟨['a','b'], ['f'], 1⟩, ⟨['a','b'], ['f'], 2⟩,
         ⟨['a','b'], ['f'], 3⟩, ⟨['a','b'], ['f'], 4⟩,
         ⟨['a','x','b'], ['f'], 5⟩, ⟨['a','x','b'], ['f'], 6⟩]) = [] := by
  decide
